import Mathlib

/-!
Verification of the Kokoros TTS pipeline (lucasjinreal/Kokoros).

This file gives a shallow embedding of the algorithmic core of
`src/kokoros/src/tts/koko.rs` and `src/koko/src/main.rs`:

* the chunk planner `split_text_into_chunks`,
* the style resolver `mix_styles` and voice loading `load_voices`,
* the all-pass filter `apply_phase_shift` and the stereo output paths of `tts`,
* the request pipeline `tts_raw_audio` / `tts`,
* the per-mode instance construction of `main`.

Modelling conventions:

* Rust `&str` texts are modelled as `List Char` (`Text`); Rust string
  operations (`split`, `trim`, `split_whitespace`, `split_once`, `contains`,
  `format!` concatenation) are given faithful `List Char` counterparts below.
* `f32` samples, speeds and style weights are modelled as `ℚ` (exact
  arithmetic); the claims settled here concern the structure of the arithmetic
  expressions the code computes, with the concrete counterexample values
  chosen so that `f32` evaluation is exact and agrees with `ℚ`.
* The espeak phonemizer (`espeak_rs::text_to_phonemes`, an external
  collaborator) is an arbitrary parameter
  `phon : Text → Text → Except PErr Text` (text, language) standing for the
  already-joined phoneme string of a `Result`.
* The ONNX inference engine (external collaborator) is an arbitrary parameter
  `infer : List (List ℕ) → List (List ℚ) → ℚ → Except IErr (List ℚ)`.
-/

set_option maxRecDepth 16000

set_option allowUnsafeReducibility true in
attribute [semireducible] Rat.add Rat.sub Rat.mul Rat.div Rat.neg Rat.inv

/-- Rust `&str` / `String` text, modelled as its character list. -/
abbrev Text := List Char

/-- The sentence-terminal characters of `split_text_into_chunks`
(koko.rs line 112): `.`, `?`, `!`, `;`. -/
def isSentencePunct (c : Char) : Bool :=
  c = '.' || c = '?' || c = '!' || c = ';'

/-- Rust `str::split(pred)` on a character predicate: splits at every
matching character, keeping empty pieces (so the piece count is one more
than the separator count). -/
def splitP (p : Char → Bool) : Text → List Text
  | [] => [[]]
  | c :: l =>
    if p c then [] :: splitP p l
    else
      match splitP p l with
      | [] => [[c]]
      | g :: gs => (c :: g) :: gs

/-- Rust `str::trim`, dropping leading and trailing whitespace. -/
def trimWS (l : Text) : Text :=
  ((l.dropWhile Char.isWhitespace).reverse.dropWhile Char.isWhitespace).reverse

/-- Rust `str::split_whitespace`: the nonempty pieces between whitespace. -/
def wordsWS (l : Text) : List Text :=
  (splitP Char.isWhitespace l).filter (fun w => !w.isEmpty)

/-- Modelled from the spec: the tokenizer of
`src/kokoros/src/tts/tokenize.rs` is not included under `src/`.  Per spec
§4.1 (and consistently with the vocab-filtering behaviour exercised by
`src/test_unicode.rs`) it maps each character of the phoneme string through
the symbol table `vocab`, silently skipping characters absent from the
table.  The symbol table itself is kept abstract as `vocab : Char → Option ℕ`. -/
def tokenize (vocab : Char → Option ℕ) (phonemes : Text) : List ℕ :=
  phonemes.filterMap vocab

/-- The English language code `"en"` hard-coded at koko.rs lines 123 and 140. -/
def enLang : Text := ['e', 'n']

/-- The token-count measurement used by the chunk planner (koko.rs lines
122-126 and 140-143): phonemize with language `"en"`, treat a phonemization
error as the empty phoneme string (`unwrap_or_default`), tokenize, count. -/
def planCost {PErr : Type} (vocab : Char → Option ℕ)
    (phon : Text → Text → Except PErr Text) (s : Text) : ℕ :=
  (tokenize vocab ((phon s enLang).toOption.getD [])).length

/-- The inner word-level packing loop of `split_text_into_chunks`
(koko.rs lines 130-157).  State: the emitted chunk list and the growing
`word_chunk`; both are returned. -/
def wordGo (cost : Text → ℕ) (maxTokens : ℕ) :
    List Text → List Text → Text → List Text × Text
  | [], chunks, wc => (chunks, wc)
  | w :: ws, chunks, wc =>
    let t := if wc.isEmpty then w else wc ++ ' ' :: w
    if cost t > maxTokens then
      wordGo cost maxTokens ws (if wc.isEmpty then chunks else chunks ++ [wc]) w
    else
      wordGo cost maxTokens ws chunks t

/-- The sentence loop of `split_text_into_chunks` (koko.rs lines 118-176).
State: the emitted chunk list and the accumulating `current_chunk`.  Note
that in the over-budget branch the word-level sub-chunks are pushed into
`chunks` while `current_chunk` is left pending, exactly as in the source. -/
def sentGo (cost : Text → ℕ) (maxTokens : ℕ) :
    List Text → List Text → Text → List Text × Text
  | [], chunks, cur => (chunks, cur)
  | s :: rest, chunks, cur =>
    let s' := trimWS s ++ ['.']
    if cost s' > maxTokens then
      let pr := wordGo cost maxTokens (wordsWS s') chunks []
      sentGo cost maxTokens rest
        (if pr.2.isEmpty then pr.1 else pr.1 ++ [pr.2]) cur
    else if cur.isEmpty then
      sentGo cost maxTokens rest chunks s'
    else if cost (cur ++ ' ' :: s') > maxTokens then
      sentGo cost maxTokens rest (chunks ++ [cur]) s'
    else
      sentGo cost maxTokens rest chunks (cur ++ ' ' :: s')

/-- `TTSKoko::split_text_into_chunks` (koko.rs lines 107-184): split the
text on sentence-terminal punctuation, drop blank sentences, then pack
sentences (falling back to greedy word packing for over-budget sentences),
flushing the trailing accumulator. -/
def split_text_into_chunks {PErr : Type} (vocab : Char → Option ℕ)
    (phon : Text → Text → Except PErr Text) (text : Text) (maxTokens : ℕ) :
    List Text :=
  let sentences := (splitP isSentencePunct text).filter (fun s => !(trimWS s).isEmpty)
  let pr := sentGo (planCost vocab phon) maxTokens sentences [] []
  if pr.2.isEmpty then pr.1 else pr.1 ++ [pr.2]

/-- The word sequence underlying a text once the sentence-terminal
punctuation re-inserted by the planner is ignored: the nonempty pieces
between whitespace and sentence-terminal characters. -/
def wordsPT (l : Text) : List Text :=
  (splitP (fun c => c.isWhitespace || isSentencePunct c) l).filter
    (fun w => !w.isEmpty)

/-- A token-count oracle realizing "one token per character": the identity
phonemizer (with errors in `Unit`). -/
def phonId : Text → Text → Except Unit Text := fun t _ => .ok t

/-- A symbol table containing every character (each mapped to token 0), so
that `planCost vocab0 phonId s = s.length`. -/
def vocab0 : Char → Option ℕ := fun _ => some 0

/-- The inner loop of `apply_phase_shift` (koko.rs lines 63-68), carrying
the previous output sample `y1` and the previous input sample `x1`:
`y = k * x + y1 - k * x1`. -/
def apsGo (k : ℚ) : ℚ → ℚ → List ℚ → List ℚ
  | _, _, [] => []
  | y1, x1, x :: rest => (k * x + y1 - k * x1) :: apsGo k (k * x + y1 - k * x1) x rest

/-- `apply_phase_shift` (koko.rs lines 55-71): the first-order recurrence
`y[n] = k*x[n] + y[n-1] - k*x[n-1]` with `y1` and `x1` initialized to `0.0`,
where `k` is the `phase_shift` parameter. -/
def apply_phase_shift (audio : List ℚ) (phase_shift : ℚ) : List ℚ :=
  apsGo phase_shift 0 0 audio

/-- The sample stream written by the loop
`for i in 0..audio.len() { write audio[i]; write shifted[i] }`
(koko.rs lines 266-269).  Since `shifted` has the same length as `audio`
(proved below as part of C8), indexing both arrays over `0..audio.len()` is
exactly this pairwise interleaving. -/
def interleave : List ℚ → List ℚ → List ℚ
  | a :: as, b :: bs => a :: b :: interleave as bs
  | _, _ => []

/-- The sample stream `tts` writes to the WAV file (koko.rs lines 258-276):
mono pass-through; stereo with `stereo_phase_shift != 0.0` interleaves the
original (left) with the filtered buffer (right); stereo at phase shift `0`
duplicates every sample into both channels. -/
def writtenFileSamples (mono : Bool) (stereo_phase_shift : ℚ) (audio : List ℚ) :
    List ℚ :=
  if mono then audio
  else if stereo_phase_shift ≠ 0 then
    interleave audio (apply_phase_shift audio stereo_phase_shift)
  else (audio.map (fun s => [s, s])).flatten

/-- The style table of `TTSKoko` (koko.rs line 28,
`HashMap<String, Vec<[[f32; 256]; 1]>>`), modelled as an association list
from the style name to the 256-float vector `style[0][0]` — the only
projection of the stored tensor that `mix_styles` ever reads
(koko.rs lines 289 and 315). -/
abbrev Styles := List (Text × List ℚ)

/-- The zero-initialized blend accumulator `vec![vec![0.0; 256]; 1]`
(koko.rs line 311), inner vector. -/
def zero256 : List ℚ := List.replicate 256 0

/-- Rust `str::split_once(c)`: split at the first occurrence of `c`,
returning the parts before and after it, or `None` if `c` is absent. -/
def splitOnce (c : Char) : Text → Option (Text × Text)
  | [] => none
  | d :: rest =>
    if d = c then some ([], rest)
    else (splitOnce c rest).map (fun pr => (d :: pr.1, pr.2))

/-- The segment-parsing loop of `mix_styles` (koko.rs lines 296-308): split
the specification on `'+'`, split each segment at its first `'.'` into a
name and a weight string, parse the weight (segments whose weight fails to
parse are silently skipped), and scale the parsed weight by `0.1`.  The
float parser `parse` (Rust `str::parse::<f32>`, a library collaborator) is
kept abstract. -/
def parseSegments (parse : Text → Option ℚ) (spec : Text) : List (Text × ℚ) :=
  (splitP (fun c => c = '+') spec).filterMap (fun seg =>
    match splitOnce '.' seg with
    | some pr => (parse pr.2).map (fun w => (pr.1, w * (1 / 10)))
    | none => none)

/-- One step of the blending loop of `mix_styles` (koko.rs lines 313-321):
if the segment's name is found in the style table, add `style_slice[j] *
portion` into every accumulator coordinate `j < 256`; a name absent from
the table leaves the accumulator unchanged. -/
def blendStep (styles : Styles) (acc : List ℚ) (nw : Text × ℚ) : List ℚ :=
  match styles.lookup nw.1 with
  | some v => (List.range 256).map (fun j => acc.getD j 0 + v.getD j 0 * nw.2)
  | none => acc

/-- The error text `format!("can not found from styles_map: {}", style_name)`
of koko.rs line 292, without the interpolated name. -/
def notFoundMsg : Text := "can not found from styles_map: ".data

/-- `TTSKoko::mix_styles` (koko.rs lines 283-324).  A specification without
`'+'` is looked up directly (error if absent); a specification containing
`'+'` is parsed into weighted segments and blended from a zero-initialized
accumulator, and never errors. -/
def mix_styles (parse : Text → Option ℚ) (styles : Styles) (style_name : Text) :
    Except Text (List (List ℚ)) :=
  if style_name.contains '+' then
    .ok [(parseSegments parse style_name).foldl (blendStep styles) zero256]
  else
    match styles.lookup style_name with
    | some v => .ok [v]
    | none => .error (notFoundMsg ++ style_name)

/-- `TTSKoko::load_voices` (koko.rs lines 326-370): starting from the empty
style table, a failed `load_json_file` inserts nothing (construction
continues with the empty table — the `if let Ok` simply does not fire),
while a successful load populates the table from the parsed document
(the populating loop is abstracted as `parseObj`). -/
def load_voices {E J : Type} (parseObj : J → Styles) : Except E J → Styles
  | .error _ => []
  | .ok v => parseObj v

/-- The errors `tts_raw_audio` can return (koko.rs lines 199, 204, 221-224):
the propagated `mix_styles` lookup error, the propagated phonemizer error,
and the `format!("Chunk processing failed: {:?}", e)` error built from the
inference failure.  Note that the latter two carry only the cause — the
offending chunk's text is printed to stderr (lines 219-220), not stored in
the returned error. -/
inductive TtsError (PErr IErr : Type) : Type
  | styleLookup (msg : Text)
  | phonemizeFailed (cause : PErr)
  | chunkFailed (cause : IErr)
deriving DecidableEq

/-- The chunk list `tts_raw_audio` processes (koko.rs line 195): the
planner invoked with the fixed budget 500.  The planner takes no language
argument — its measurements are hard-wired to `"en"` (see `planCost`). -/
def ttsChunks {PErr : Type} (vocab : Char → Option ℕ)
    (phon : Text → Text → Except PErr Text) (txt : Text) : List Text :=
  split_text_into_chunks vocab phon txt 500

/-- The body of the per-chunk loop of `tts_raw_audio` (koko.rs lines
201-227): skipped once an error has occurred (the Rust loop has already
returned), otherwise phonemize the chunk with the caller-supplied language
`lan`, prepend `initial_silence` copies of token 30, run inference, and
extend `final_audio`; a phonemization failure propagates the espeak error,
an inference failure produces the `format!("Chunk processing failed: ...")`
error from the cause (the chunk's text is only printed to stderr). -/
def chunkStep {PErr IErr : Type} (vocab : Char → Option ℕ)
    (phon : Text → Text → Except PErr Text) (lan : Text)
    (infer : List (List ℕ) → List (List ℚ) → ℚ → Except IErr (List ℚ))
    (sty : List (List ℚ)) (speed : ℚ) (sil : ℕ)
    (acc : Except (TtsError PErr IErr) (List ℚ)) (chunk : Text) :
    Except (TtsError PErr IErr) (List ℚ) :=
  acc.bind (fun final_audio =>
    match phon chunk lan with
    | .error e => .error (.phonemizeFailed e)
    | .ok ph =>
      match infer [List.replicate sil 30 ++ tokenize vocab ph] sty speed with
      | .error e => .error (.chunkFailed e)
      | .ok a => .ok (final_audio ++ a))

/-- `TTSKoko::tts_raw_audio` (koko.rs lines 186-230): plan the chunks with
budget 500, resolve the style once, then run the per-chunk loop over the
chunk list starting from an empty `final_audio`; the first phonemization
or inference failure aborts the request, discarding the audio accumulated
so far. -/
def tts_raw_audio {PErr IErr : Type} (vocab : Char → Option ℕ)
    (phon : Text → Text → Except PErr Text) (parse : Text → Option ℚ)
    (infer : List (List ℕ) → List (List ℚ) → ℚ → Except IErr (List ℚ))
    (styles : Styles) (txt lan style_name : Text) (speed : ℚ)
    (initial_silence : Option ℕ) : Except (TtsError PErr IErr) (List ℚ) :=
  let chunks := ttsChunks vocab phon txt
  match mix_styles parse styles style_name with
  | .error m => .error (.styleLookup m)
  | .ok sty =>
    chunks.foldl
      (chunkStep vocab phon lan infer sty speed (initial_silence.getD 0)) (.ok [])

/-- The chunk-processing stage of `tts_raw_audio`, abstracted over the
already-fixed per-request phonemizer `phonl` (the request's language is
applied to the phonemizer before this stage runs; the chunk list it is fed
is produced without any language input). -/
def runChunks {PErr IErr : Type} (vocab : Char → Option ℕ)
    (phonl : Text → Except PErr Text)
    (infer : List (List ℕ) → List (List ℚ) → ℚ → Except IErr (List ℚ))
    (sty : List (List ℚ)) (speed : ℚ) (sil : ℕ) :
    List Text → List ℚ → Except (TtsError PErr IErr) (List ℚ)
  | [], acc => .ok acc
  | c :: rest, acc =>
    match phonl c with
    | .error e => .error (.phonemizeFailed e)
    | .ok ph =>
      match infer [List.replicate sil 30 ++ tokenize vocab ph] sty speed with
      | .error e => .error (.chunkFailed e)
      | .ok a => runChunks vocab phonl infer sty speed sil rest (acc ++ a)

/-- `TTSKoko::tts` (koko.rs lines 232-281): run `tts_raw_audio` and only on
success produce the file's sample stream (the `hound::WavWriter` is created
after the `?` on line 245, so an erroring request produces no file
content).  The written file is modelled by the sequence of samples written
to it. -/
def tts {PErr IErr : Type} (vocab : Char → Option ℕ)
    (phon : Text → Text → Except PErr Text) (parse : Text → Option ℚ)
    (infer : List (List ℕ) → List (List ℚ) → ℚ → Except IErr (List ℚ))
    (styles : Styles) (txt lan style_name : Text) (speed : ℚ) (mono : Bool)
    (stereo_phase_shift : ℚ) (initial_silence : Option ℕ) :
    Except (TtsError PErr IErr) (List ℚ) :=
  (tts_raw_audio vocab phon parse infer styles txt lan style_name speed
      initial_silence).map (writtenFileSamples mono stereo_phase_shift)

/-- The four CLI subcommands of `koko/src/main.rs` (lines 47-101). -/
inductive RunMode : Type
  | text
  | file
  | stream
  | openai
deriving DecidableEq

/-- The `TTSKoko::new` calls `main` performs (main.rs lines 306-316 and
370-376), as the list of instance-count arguments passed to each
construction: CLI modes construct exactly one instance with count argument
`1` (the configured `--instances` value is ignored with a log message);
`openai` mode constructs one instance per configured count, each receiving
the configured total. -/
def constructedInstanceCounts (mode : RunMode) (instances : ℕ) : List ℕ :=
  (match mode with
   | RunMode.openai => []
   | _ => [1]) ++
  (match mode with
   | RunMode.openai => (List.range instances).map (fun _ => instances)
   | _ => [])

/-- The numeric value of a decimal digit string. -/
def digitsVal (s : Text) : ℕ :=
  s.foldl (fun a c => 10 * a + (c.toNat - 48)) 0

/-- A concrete weight parser accepting nonempty decimal digit strings — the
fragment of Rust `str::parse::<f32>` exercised by the spec's examples
(`"a.5+b.5"` and the like), used to instantiate the abstract parser in
concrete evaluations. -/
def parseDigits (s : Text) : Option ℚ :=
  if !s.isEmpty && s.all Char.isDigit then some (digitsVal s) else none

/-- The unit vector in coordinate 0 of the spec's blend example. -/
def e0 : List ℚ := 1 :: List.replicate 255 0

/-- The unit vector in coordinate 1 of the spec's blend example. -/
def e1 : List ℚ := 0 :: 1 :: List.replicate 254 0

/-- The style table `{a ↦ e0, b ↦ e1}` of the spec's blend example. -/
def tblAB : Styles := [(['a'], e0), (['b'], e1)]

/-- The expected blend `[0.5, 0.5, 0, ...]` of the spec's example. -/
def vHalf : List ℚ := (1 : ℚ) / 2 :: (1 : ℚ) / 2 :: List.replicate 254 0

/-- The closed form of the blended vector: coordinate `j` is the sum over
the parsed segments of the named style vector's coordinate `j` (zero for a
name absent from the table) times the segment's scaled weight. -/
def blendFormula (parse : Text → Option ℚ) (styles : Styles) (spec : Text) :
    List ℚ :=
  (List.range 256).map (fun j =>
    ((parseSegments parse spec).map
      (fun nw => ((styles.lookup nw.1).getD zero256).getD j 0 * nw.2)).sum)

/-- C1.  Evaluation of the chunk planner at the failing input: with the
one-token-per-character oracle, text `"aa. bbbbbb. cc."` and budget 6, the
over-budget middle sentence `"bbbbbb."` is word-split and its sub-chunk is
pushed while the accumulator still holds `"aa."`, so the planner returns
`["bbbbbb.", "aa.", "cc."]` — and concatenating the chunks' word sequences
does not reproduce the input's words in their original order, contrary to
the claim (and to the spec's "chunks are produced in input order"). -/
theorem split_text_into_chunks_order_bug :
    split_text_into_chunks vocab0 phonId "aa. bbbbbb. cc.".data 6 =
      ["bbbbbb.".data, "aa.".data, "cc.".data] ∧
    ((split_text_into_chunks vocab0 phonId "aa. bbbbbb. cc.".data 6).map
        wordsPT).flatten ≠ wordsPT "aa. bbbbbb. cc.".data := by
  constructor
  · decide
  · decide

/-- An inference engine that fails on every call (errors in `Unit`),
used to exercise the failure paths on concrete inputs. -/
def inferFail : List (List ℕ) → List (List ℚ) → ℚ → Except Unit (List ℚ) :=
  fun _ _ _ => .error ()

/-- A phonemizer that fails exactly for the language code `"x"` and is the
identity otherwise, used to exercise a per-chunk phonemization failure at
inference time while planning (which phonemizes with `"en"`) succeeds. -/
def phonX : Text → Text → Except Unit Text :=
  fun t lang => if lang = ['x'] then .error () else .ok t

/-- A phonemizer that fails on every input, used to exercise the planner's
zero-token measurement fallback. -/
def phonFail : Text → Text → Except Unit Text := fun _ _ => .error ()

/-- The one-entry style table `{a ↦ 0}`, enough for a successful
single-name style resolution on concrete inputs. -/
def tblA : Styles := [(['a'], zero256)]

/-- Decidable equality of `Except` results, used to evaluate the model at
concrete inputs. -/
instance exceptDecEq {ε α : Type} [DecidableEq ε] [DecidableEq α] :
    DecidableEq (Except ε α) := fun x y =>
  match x, y with
  | .ok v, .ok w => if h : v = w then isTrue (by rw [h]) else isFalse (by simp [h])
  | .error v, .error w =>
    if h : v = w then isTrue (by rw [h]) else isFalse (by simp [h])
  | .ok _, .error _ => isFalse (by simp)
  | .error _, .ok _ => isFalse (by simp)

/-- Rust `split` never returns an empty piece list. -/
theorem splitP_ne_nil (p : Char → Bool) (l : Text) : splitP p l ≠ [] := by
  induction l with
  | nil => simp [splitP]
  | cons c l ih =>
    unfold splitP
    by_cases h : p c
    · simp [h]
    · simp only [h, if_false]
      cases hs : splitP p l with
      | nil => simp
      | cons g gs => simp

/-- Every piece produced by `splitP p` is free of characters satisfying `p`. -/
theorem mem_splitP_all (p : Char → Bool) (l : Text) :
    ∀ s ∈ splitP p l, s.all (fun c => !p c) = true := by
  induction l with
  | nil =>
    intro s hs
    simp [splitP] at hs
    subst hs; rfl
  | cons c l ih =>
    intro s hs
    unfold splitP at hs
    by_cases h : p c
    · simp only [h, if_true] at hs
      rcases List.mem_cons.mp hs with rfl | hs
      · rfl
      · exact ih s hs
    · simp only [h, if_false] at hs
      cases hg : splitP p l with
      | nil => exact absurd hg (splitP_ne_nil p l)
      | cons g gs =>
        rw [hg] at hs
        rcases List.mem_cons.mp hs with rfl | hs
        · have hg' := ih g (by rw [hg]; exact List.mem_cons_self g gs)
          simp [List.all_cons, h, hg']
        · exact ih s (by rw [hg]; exact List.mem_cons_of_mem g hs)

/-- Every piece of `split_whitespace` is a nonempty whitespace-free word. -/
theorem wordsWS_spec (l : Text) :
    ∀ w ∈ wordsWS l, w ≠ [] ∧ w.all (fun ch => !ch.isWhitespace) = true := by
  intro w hw
  unfold wordsWS at hw
  have hmem := List.mem_of_mem_filter hw
  have hne := List.of_mem_filter hw
  refine ⟨?_, mem_splitP_all Char.isWhitespace l w hmem⟩
  simpa [List.isEmpty_iff] using hne

/-- Invariant of the word-packing loop: every emitted chunk, and the
in-progress `word_chunk` when nonempty, is either within budget or a
single whitespace-free word. -/
theorem wordGo_inv (cost : Text → ℕ) (maxTokens : ℕ) (ws : List Text)
    (hws : ∀ w ∈ ws, w ≠ [] ∧ w.all (fun ch => !ch.isWhitespace) = true) :
    ∀ chunks wc,
      (∀ c ∈ chunks,
        cost c ≤ maxTokens ∨ (c ≠ [] ∧ c.all (fun ch => !ch.isWhitespace) = true)) →
      (wc = [] ∨ cost wc ≤ maxTokens ∨
        (wc ≠ [] ∧ wc.all (fun ch => !ch.isWhitespace) = true)) →
      (∀ c ∈ (wordGo cost maxTokens ws chunks wc).1,
        cost c ≤ maxTokens ∨ (c ≠ [] ∧ c.all (fun ch => !ch.isWhitespace) = true)) ∧
      ((wordGo cost maxTokens ws chunks wc).2 = [] ∨
        cost (wordGo cost maxTokens ws chunks wc).2 ≤ maxTokens ∨
        ((wordGo cost maxTokens ws chunks wc).2 ≠ [] ∧
          (wordGo cost maxTokens ws chunks wc).2.all (fun ch => !ch.isWhitespace) = true)) := by
  induction ws with
  | nil => intro chunks wc hch hwc; exact ⟨hch, hwc⟩
  | cons w ws ih =>
    intro chunks wc hch hwc
    have hw := hws w (List.mem_cons_self w ws)
    have hws' : ∀ w' ∈ ws, w' ≠ [] ∧ w'.all (fun ch => !ch.isWhitespace) = true :=
      fun w' hw' => hws w' (List.mem_cons_of_mem w hw')
    have ihws := ih hws'
    unfold wordGo
    by_cases ht : cost (if wc.isEmpty then w else wc ++ ' ' :: w) > maxTokens
    · simp only [ht, if_true]
      refine ihws _ _ ?_ (Or.inr (Or.inr hw))
      by_cases hwcE : wc.isEmpty
      · simpa [hwcE] using hch
      · simp only [hwcE, if_false]
        intro c hc
        rcases List.mem_append.mp hc with hc | hc
        · exact hch c hc
        · have : c = wc := by simpa using hc
          subst this
          rcases hwc with rfl | h
          · simp at hwcE
          · exact h
    · simp only [ht, if_false]
      exact ihws _ _ hch (Or.inr (Or.inl (Nat.le_of_not_lt ht)))

/-- Invariant of the sentence loop: every emitted chunk is either within
budget or a single whitespace-free word, and the accumulator, when
nonempty, is within budget. -/
theorem sentGo_inv (cost : Text → ℕ) (maxTokens : ℕ) (sents : List Text) :
    ∀ chunks cur,
      (∀ c ∈ chunks,
        cost c ≤ maxTokens ∨ (c ≠ [] ∧ c.all (fun ch => !ch.isWhitespace) = true)) →
      (cur = [] ∨ cost cur ≤ maxTokens) →
      (∀ c ∈ (sentGo cost maxTokens sents chunks cur).1,
        cost c ≤ maxTokens ∨ (c ≠ [] ∧ c.all (fun ch => !ch.isWhitespace) = true)) ∧
      ((sentGo cost maxTokens sents chunks cur).2 = [] ∨
        cost (sentGo cost maxTokens sents chunks cur).2 ≤ maxTokens) := by
  induction sents with
  | nil => intro chunks cur hch hcur; exact ⟨hch, hcur⟩
  | cons s rest ih =>
    intro chunks cur hch hcur
    unfold sentGo
    by_cases hs : cost (trimWS s ++ ['.']) > maxTokens
    · simp only [hs, if_true]
      have hwg := wordGo_inv cost maxTokens (wordsWS (trimWS s ++ ['.']))
        (wordsWS_spec (trimWS s ++ ['.'])) chunks [] hch (Or.inl rfl)
      refine ih _ _ ?_ hcur
      by_cases hE : (wordGo cost maxTokens (wordsWS (trimWS s ++ ['.'])) chunks []).2.isEmpty
      · simpa [hE] using hwg.1
      · simp only [hE, if_false]
        intro c hc
        rcases List.mem_append.mp hc with hc | hc
        · exact hwg.1 c hc
        · have hceq : c = (wordGo cost maxTokens (wordsWS (trimWS s ++ ['.'])) chunks []).2 := by
            simpa using hc
          subst hceq
          rcases hwg.2 with h0 | h
          · rw [h0] at hE; simp at hE
          · exact h
    · simp only [hs, if_false]
      by_cases hc0 : cur.isEmpty
      · simp only [hc0, if_true]
        exact ih _ _ hch (Or.inr (Nat.le_of_not_lt hs))
      · simp only [hc0, if_false]
        by_cases hcomb : cost (cur ++ ' ' :: (trimWS s ++ ['.'])) > maxTokens
        · simp only [hcomb, if_true]
          refine ih _ _ ?_ (Or.inr (Nat.le_of_not_lt hs))
          intro c hc
          rcases List.mem_append.mp hc with hc | hc
          · exact hch c hc
          · have : c = cur := by simpa using hc
            subst this
            rcases hcur with rfl | h
            · simp at hc0
            · exact Or.inl h
        · simp only [hcomb, if_false]
          exact ih _ _ hch (Or.inr (Nat.le_of_not_lt hcomb))

/-- C2.  Every chunk returned by `split_text_into_chunks` has a measured
phoneme-token count at most `maxTokens`, except possibly a chunk that is a
single whitespace-free word (which is emitted unsplit even when its own
phonemization exceeds the budget); and the chunk list `tts_raw_audio`
processes is the planner's output at budget 500. -/
theorem chunk_token_budget {PErr : Type} (vocab : Char → Option ℕ)
    (phon : Text → Text → Except PErr Text) :
    (∀ (txt : Text) (maxTokens : ℕ),
      ∀ c ∈ split_text_into_chunks vocab phon txt maxTokens,
        planCost vocab phon c ≤ maxTokens ∨
          (c ≠ [] ∧ c.all (fun ch => !ch.isWhitespace) = true)) ∧
    (∀ txt : Text, ttsChunks vocab phon txt = split_text_into_chunks vocab phon txt 500) ∧
    (∀ txt : Text, ∀ c ∈ ttsChunks vocab phon txt,
      planCost vocab phon c ≤ 500 ∨
        (c ≠ [] ∧ c.all (fun ch => !ch.isWhitespace) = true)) := by
  have main : ∀ (txt : Text) (maxTokens : ℕ),
      ∀ c ∈ split_text_into_chunks vocab phon txt maxTokens,
        planCost vocab phon c ≤ maxTokens ∨
          (c ≠ [] ∧ c.all (fun ch => !ch.isWhitespace) = true) := by
    intro txt maxTokens c hc
    unfold split_text_into_chunks at hc
    have hinv := sentGo_inv (planCost vocab phon) maxTokens
      ((splitP isSentencePunct txt).filter (fun s => !(trimWS s).isEmpty)) [] []
      (by simp) (Or.inl rfl)
    set pr := sentGo (planCost vocab phon) maxTokens
      ((splitP isSentencePunct txt).filter (fun s => !(trimWS s).isEmpty)) [] [] with hpr
    by_cases hE : pr.2.isEmpty
    · rw [if_pos hE] at hc
      exact hinv.1 c hc
    · rw [if_neg hE] at hc
      rcases List.mem_append.mp hc with hc | hc
      · exact hinv.1 c hc
      · have : c = pr.2 := by simpa using hc
        subst this
        rcases hinv.2 with h0 | h
        · rw [h0] at hE; simp at hE
        · exact Or.inl h
  exact ⟨main, fun txt => rfl, fun txt c hc => main txt 500 c hc⟩

/-- C2 witness: at the concrete one-token-per-character oracle, the chunk
`"bbbbbb."` of `"aa. bbbbbb. cc."` at budget 6 satisfies the guarantee (it
is over budget but is a single whitespace-free word). -/
theorem chunk_token_budget_witness :
    planCost vocab0 phonId "bbbbbb.".data ≤ 6 ∨
      ("bbbbbb.".data ≠ [] ∧ "bbbbbb.".data.all (fun ch => !ch.isWhitespace) = true) :=
  (chunk_token_budget vocab0 phonId).1 "aa. bbbbbb. cc.".data 6 "bbbbbb.".data
    (by decide)

/-- With coefficient `k = 0` the filter recurrence collapses to
`y = 0*x + y1 - 0*x1 = y1`, so the loop replicates its initial `y1`. -/
theorem apsGo_zero (l : List ℚ) : ∀ y1 x1 : ℚ,
    apsGo 0 y1 x1 l = List.replicate l.length y1 := by
  induction l with
  | nil => intro y1 x1; rfl
  | cons x rest ih =>
    intro y1 x1
    simp [apsGo, ih, List.replicate_succ]

/-- C5 counterexample: at phase shift `0` the all-pass filter does not
return its input — on the buffer `[1.0]` it returns `[0.0]` (the `f32`
computation `0.0*1.0 + 0.0 - 0.0*0.0` is exact) — and therefore the
duplication path the code special-cases for `stereo_phase_shift == 0.0`
does not agree with the filter path. -/
theorem apply_phase_shift_zero_not_identity :
    apply_phase_shift [1] 0 ≠ [1] ∧
    writtenFileSamples false 0 [1] ≠ interleave [1] (apply_phase_shift [1] 0) := by
  constructor
  · decide
  · decide

/-- Interleaving a buffer with silence of matching length. -/
theorem interleave_replicate_zero (l : List ℚ) :
    interleave l (List.replicate l.length 0) =
      (l.map (fun s => [s, (0 : ℚ)])).flatten := by
  induction l with
  | nil => rfl
  | cons a as ih => simpa [interleave, List.replicate_succ] using ih

/-- Duplicated samples and right-channel silence coincide exactly for
all-zero buffers. -/
theorem dup_eq_silence_iff (l : List ℚ) :
    (l.map (fun s => [s, s])).flatten = (l.map (fun s => [s, (0 : ℚ)])).flatten ↔
      l = List.replicate l.length 0 := by
  induction l with
  | nil => simp
  | cons a as ih => simp [List.replicate_succ, ih, and_comm]

/-- C5 amended: at phase shift `0` the filter returns the all-zero buffer
of the input's length, so the special-cased duplication path (right channel
a copy of the left) and the filter path (right channel silence) genuinely
differ; they agree only on all-zero buffers. -/
theorem apply_phase_shift_zero_silence (audio : List ℚ) :
    apply_phase_shift audio 0 = List.replicate audio.length 0 ∧
    writtenFileSamples false 0 audio = (audio.map (fun s => [s, s])).flatten ∧
    interleave audio (apply_phase_shift audio 0) =
      (audio.map (fun s => [s, (0 : ℚ)])).flatten ∧
    (writtenFileSamples false 0 audio = interleave audio (apply_phase_shift audio 0) ↔
      audio = List.replicate audio.length 0) := by
  have hzero : apply_phase_shift audio 0 = List.replicate audio.length 0 :=
    apsGo_zero audio 0 0
  have hdup : writtenFileSamples false 0 audio = (audio.map (fun s => [s, s])).flatten := by
    simp [writtenFileSamples]
  have hint : interleave audio (apply_phase_shift audio 0) =
      (audio.map (fun s => [s, (0 : ℚ)])).flatten := by
    rw [hzero]; exact interleave_replicate_zero audio
  refine ⟨hzero, hdup, hint, ?_⟩
  rw [hdup, hint]
  exact dup_eq_silence_iff audio

/-- The filter loop preserves the buffer length. -/
theorem apsGo_length (k : ℚ) (l : List ℚ) : ∀ y1 x1 : ℚ,
    (apsGo k y1 x1 l).length = l.length := by
  induction l with
  | nil => intro y1 x1; rfl
  | cons x rest ih => intro y1 x1; simp [apsGo, ih]

/-- The filter loop satisfies the first-order recurrence at every interior
index, whatever the carried state. -/
theorem apsGo_getD_succ (k : ℚ) (l : List ℚ) : ∀ (y1 x1 : ℚ) (n : ℕ),
    n + 1 < l.length →
    (apsGo k y1 x1 l).getD (n + 1) 0 =
      k * l.getD (n + 1) 0 + (apsGo k y1 x1 l).getD n 0 - k * l.getD n 0 := by
  induction l with
  | nil => intro y1 x1 n h; simp at h
  | cons x rest ih =>
    intro y1 x1 n h
    cases n with
    | zero =>
      cases rest with
      | nil => simp at h
      | cons x2 rest2 => simp [apsGo]
    | succ m =>
      have hm : m + 1 < rest.length := by
        simpa [Nat.succ_lt_succ_iff] using h
      simpa [apsGo] using ih (k * x + y1 - k * x1) x m hm

/-- Reading the interleaved stereo stream at even index `2*i` gives the
left-channel sample `a[i]`, at odd index `2*i+1` the right-channel sample
`b[i]`, whenever the two buffers have equal length. -/
theorem interleave_getD (a : List ℚ) : ∀ (b : List ℚ), b.length = a.length →
    ∀ i < a.length,
      (interleave a b).getD (2 * i) 0 = a.getD i 0 ∧
      (interleave a b).getD (2 * i + 1) 0 = b.getD i 0 := by
  induction a with
  | nil => intro b hb i hi; simp at hi
  | cons x as ih =>
    intro b hb i hi
    cases b with
    | nil => simp at hb
    | cons y bs =>
      have hbs : bs.length = as.length := by simpa using hb
      cases i with
      | zero => simp [interleave]
      | succ m =>
        have hm : m < as.length := by simpa [Nat.succ_lt_succ_iff] using hi
        have h2 : 2 * (m + 1) = 2 * m + 1 + 1 := by ring
        rw [h2]
        simpa [interleave] using ih bs hbs m hm

/-- C8.  `apply_phase_shift` returns a buffer of the same length as its
input satisfying the recurrence `y[n] = k*x[n] + y[n-1] - k*x[n-1]` with
`y[-1] = x[-1] = 0` (stated as the `n = 0` base case plus the step case),
and in the stereo-with-phase-shift output path the even-indexed (left
channel) samples are the unmodified original samples while the odd-indexed
(right channel) samples are the filtered ones. -/
theorem apply_phase_shift_recurrence (audio : List ℚ) (k : ℚ) :
    (apply_phase_shift audio k).length = audio.length ∧
    (audio ≠ [] →
      (apply_phase_shift audio k).getD 0 0 = k * audio.getD 0 0 + 0 - k * 0) ∧
    (∀ n : ℕ, n + 1 < audio.length →
      (apply_phase_shift audio k).getD (n + 1) 0 =
        k * audio.getD (n + 1) 0 + (apply_phase_shift audio k).getD n 0 -
          k * audio.getD n 0) ∧
    (k ≠ 0 → ∀ i < audio.length,
      (writtenFileSamples false k audio).getD (2 * i) 0 = audio.getD i 0 ∧
      (writtenFileSamples false k audio).getD (2 * i + 1) 0 =
        (apply_phase_shift audio k).getD i 0) := by
  refine ⟨apsGo_length k audio 0 0, ?_, ?_, ?_⟩
  · intro hne
    cases audio with
    | nil => exact absurd rfl hne
    | cons x rest => simp [apply_phase_shift, apsGo]
  · intro n hn
    exact apsGo_getD_succ k audio 0 0 n hn
  · intro hk i hi
    have hw : writtenFileSamples false k audio =
        interleave audio (apply_phase_shift audio k) := by
      simp [writtenFileSamples, hk]
    rw [hw]
    exact interleave_getD audio (apply_phase_shift audio k)
      (apsGo_length k audio 0 0) i hi

/-- C8 witness: the recurrence and the stereo layout checked on the
concrete buffer `[1, 2]` with coefficient `3`. -/
theorem apply_phase_shift_recurrence_witness :
    (apply_phase_shift [(1 : ℚ), 2] 3).getD 0 0 =
        3 * ([(1 : ℚ), 2]).getD 0 0 + 0 - 3 * 0 ∧
    (apply_phase_shift [(1 : ℚ), 2] 3).getD 1 0 =
        3 * ([(1 : ℚ), 2]).getD 1 0 + (apply_phase_shift [(1 : ℚ), 2] 3).getD 0 0 -
          3 * ([(1 : ℚ), 2]).getD 0 0 ∧
    (writtenFileSamples false 3 [(1 : ℚ), 2]).getD 2 0 = ([(1 : ℚ), 2]).getD 1 0 ∧
    (writtenFileSamples false 3 [(1 : ℚ), 2]).getD 3 0 =
        (apply_phase_shift [(1 : ℚ), 2] 3).getD 1 0 := by
  refine ⟨(apply_phase_shift_recurrence [(1 : ℚ), 2] 3).2.1 (by decide),
    (apply_phase_shift_recurrence [(1 : ℚ), 2] 3).2.2.1 0 (by decide), ?_, ?_⟩
  · exact ((apply_phase_shift_recurrence [(1 : ℚ), 2] 3).2.2.2 (by decide) 1
      (by decide)).1
  · exact ((apply_phase_shift_recurrence [(1 : ℚ), 2] 3).2.2.2 (by decide) 1
      (by decide)).2

/-- Rust `split` at an explicit separator occurrence: the pieces of
`a ++ c :: b` are the pieces of `a` followed by the pieces of `b`. -/
theorem splitP_middle (p : Char → Bool) (c : Char) (hc : p c = true) (b : Text) :
    ∀ a : Text, splitP p (a ++ c :: b) = splitP p a ++ splitP p b := by
  intro a
  induction a with
  | nil => simp [splitP, hc]
  | cons d a ih =>
    by_cases hd : p d
    · simp [splitP, hd, ih]
    · simp only [List.cons_append, splitP, hd, if_false, List.append_eq, ih]
      cases hg : splitP p a with
      | nil => exact absurd hg (splitP_ne_nil p a)
      | cons g gs => simp

/-- Rust `split` on a text containing no separator yields that text as the
single piece. -/
theorem splitP_no_sep (p : Char → Bool) (l : Text)
    (h : ∀ x ∈ l, p x = false) : splitP p l = [l] := by
  induction l with
  | nil => rfl
  | cons d l ih =>
    have hd : p d = false := h d (List.mem_cons_self d l)
    have ih' := ih (fun x hx => h x (List.mem_cons_of_mem d hx))
    simp [splitP, hd, ih']

/-- A text with an explicit `c` in the middle contains `c`. -/
theorem contains_append_cons (s1 s2 : Text) (c : Char) :
    (s1 ++ c :: s2).contains c = true := by
  induction s1 with
  | nil => simp
  | cons d s1 ih => simp [ih]

/-- C3.  The single-name/blend asymmetry of `mix_styles`: a specification
without `'+'` errors exactly when the name is absent from the style table
(and returns the stored vector otherwise), whereas a specification
containing `'+'` never errors — a blend segment whose name is absent from
the table contributes nothing, so dropping such a segment (leaving its
`'+'`) does not change the result. -/
theorem mix_styles_asymmetry (parse : Text → Option ℚ) (styles : Styles) :
    (∀ spec : Text, spec.contains '+' = false → styles.lookup spec = none →
      mix_styles parse styles spec = .error (notFoundMsg ++ spec)) ∧
    (∀ (spec : Text) (v : List ℚ), spec.contains '+' = false →
      styles.lookup spec = some v → mix_styles parse styles spec = .ok [v]) ∧
    (∀ spec : Text, spec.contains '+' = true →
      (mix_styles parse styles spec).isOk = true) ∧
    (∀ s1 s2 : Text, '+' ∉ s2 →
      (∀ nm wstr : Text, splitOnce '.' s2 = some (nm, wstr) →
        styles.lookup nm = none) →
      mix_styles parse styles (s1 ++ '+' :: s2) =
        mix_styles parse styles (s1 ++ ['+'])) := by
  refine ⟨?_, ?_, ?_, ?_⟩
  · intro spec hplus hlook
    have hmem : '+' ∉ spec := by simpa using hplus
    simp [mix_styles, hmem, hlook]
  · intro spec v hplus hlook
    have hmem : '+' ∉ spec := by simpa using hplus
    simp [mix_styles, hmem, hlook]
  · intro spec hplus
    have hmem : '+' ∈ spec := by simpa using hplus
    simp [mix_styles, hmem, Except.isOk, Except.toBool]
  · intro s1 s2 h2 hlook
    have hc1 : (s1 ++ '+' :: s2).contains '+' = true := contains_append_cons s1 s2 '+'
    have hc2 : (s1 ++ ['+']).contains '+' = true := contains_append_cons s1 [] '+'
    have hs2 : ∀ x ∈ s2, ((x = '+') : Bool) = false := by
      intro x hx
      by_cases hxe : x = '+'
      · subst hxe; exact absurd hx h2
      · simp [hxe]
    have hsplit1 : splitP (fun c => (c = '+' : Bool)) (s1 ++ '+' :: s2) =
        splitP (fun c => (c = '+' : Bool)) s1 ++ [s2] := by
      rw [splitP_middle (fun c => (c = '+' : Bool)) '+' (by simp) s2 s1,
        splitP_no_sep _ s2 hs2]
    have hsplit2 : splitP (fun c => (c = '+' : Bool)) (s1 ++ ['+']) =
        splitP (fun c => (c = '+' : Bool)) s1 ++ [[]] := by
      rw [splitP_middle (fun c => (c = '+' : Bool)) '+' (by simp) [] s1]
      rfl
    simp only [mix_styles, hc1, hc2, if_true]
    congr 2
    unfold parseSegments
    rw [hsplit1, hsplit2, List.filterMap_append, List.filterMap_append,
      List.foldl_append, List.foldl_append]
    have hnil : List.filterMap (fun seg =>
        match splitOnce '.' seg with
        | some pr => (parse pr.2).map (fun w => (pr.1, w * (1 / 10)))
        | none => none) [([] : Text)] = [] := by
      simp [splitOnce]
    rw [hnil]
    cases hso : splitOnce '.' s2 with
    | none => simp [hso]
    | some pr =>
      cases hp : parse pr.2 with
      | none => simp [hso, hp]
      | some w =>
        have hlk : styles.lookup pr.1 = none := hlook pr.1 pr.2 (by rw [hso])
        simp [hso, hp, blendStep, hlk]

/-- C3 witness: with the concrete table `{a, b}`, the unknown single name
`"zz"` errors, the known single name `"a"` returns its vector, the blend
`"a.5+zz.9"` succeeds despite the unknown name, and equals the blend with
the unknown segment dropped. -/
theorem mix_styles_asymmetry_witness :
    mix_styles parseDigits tblAB "zz".data = .error (notFoundMsg ++ "zz".data) ∧
    mix_styles parseDigits tblAB "a".data = .ok [e0] ∧
    (mix_styles parseDigits tblAB "a.5+zz.9".data).isOk = true ∧
    mix_styles parseDigits tblAB ("a.5".data ++ '+' :: "zz.9".data) =
      mix_styles parseDigits tblAB ("a.5".data ++ ['+']) := by
  refine ⟨(mix_styles_asymmetry parseDigits tblAB).1 _ (by decide) (by decide),
    (mix_styles_asymmetry parseDigits tblAB).2.1 _ e0 (by decide) (by decide),
    (mix_styles_asymmetry parseDigits tblAB).2.2.1 _ (by decide),
    (mix_styles_asymmetry parseDigits tblAB).2.2.2 "a.5".data "zz.9".data
      (by decide) ?_⟩
  intro nm wstr h
  have hso : splitOnce '.' "zz.9".data = some ("zz".data, "9".data) := by decide
  rw [hso] at h
  simp only [Option.some.injEq, Prod.mk.injEq] at h
  rcases h with ⟨hnm, hw⟩
  subst hnm
  decide

/-- A list is the range-indexed map of its own entries. -/
theorem map_getD_range (l : List ℚ) :
    (List.range l.length).map (fun j => l.getD j 0) = l := by
  induction l with
  | nil => rfl
  | cons x xs ih =>
    rw [List.length_cons, List.range_succ_eq_map]
    simp only [List.map_cons, List.map_map, Function.comp_def, List.getD_cons_zero,
      List.getD_cons_succ]
    rw [ih]

/-- Reading a range-indexed map below the bound evaluates the function. -/
theorem getD_map_range (f : ℕ → ℚ) (n j : ℕ) (hj : j < n) :
    ((List.range n).map f).getD j 0 = f j := by
  rw [List.getD_eq_getElem?_getD, List.getElem?_map, List.getElem?_range hj]
  rfl

/-- Every coordinate of the zero accumulator reads zero. -/
theorem zero256_getD (j : ℕ) : zero256.getD j 0 = 0 := by
  rw [zero256, List.getD_eq_getElem?_getD, List.getElem?_replicate]
  split <;> rfl

/-- The blending step preserves the 256-coordinate accumulator length. -/
theorem blendStep_length (styles : Styles) (acc : List ℚ) (nw : Text × ℚ)
    (hacc : acc.length = 256) : (blendStep styles acc nw).length = 256 := by
  unfold blendStep
  cases styles.lookup nw.1 <;> simp [hacc]

/-- One blending step adds the (possibly zero) contribution of its segment
to every coordinate. -/
theorem blendStep_getD (styles : Styles) (acc : List ℚ) (nw : Text × ℚ)
    (j : ℕ) (hj : j < 256) :
    (blendStep styles acc nw).getD j 0 =
      acc.getD j 0 + ((styles.lookup nw.1).getD zero256).getD j 0 * nw.2 := by
  unfold blendStep
  cases h : styles.lookup nw.1 with
  | none => simp only [Option.getD_none, zero256_getD]; ring
  | some v => rw [getD_map_range _ _ _ hj]; rfl

/-- The blending fold computes, coordinatewise, the starting value plus the
sum of the per-segment contributions. -/
theorem blend_foldl_getD (styles : Styles) (l : List (Text × ℚ)) :
    ∀ acc : List ℚ, acc.length = 256 → ∀ j, j < 256 →
      (l.foldl (blendStep styles) acc).getD j 0 =
        acc.getD j 0 +
          ((l.map (fun nw => ((styles.lookup nw.1).getD zero256).getD j 0 * nw.2)).sum) := by
  induction l with
  | nil => intro acc hacc j hj; simp
  | cons nw rest ih =>
    intro acc hacc j hj
    rw [List.foldl_cons, ih (blendStep styles acc nw) (blendStep_length styles acc nw hacc) j hj,
      blendStep_getD styles acc nw j hj]
    simp only [List.map_cons, List.sum_cons]
    ring

/-- The blending fold keeps the accumulator at 256 coordinates. -/
theorem blend_foldl_length (styles : Styles) (l : List (Text × ℚ)) :
    ∀ acc : List ℚ, acc.length = 256 →
      (l.foldl (blendStep styles) acc).length = 256 := by
  induction l with
  | nil => intro acc hacc; simpa using hacc
  | cons nw rest ih =>
    intro acc hacc
    rw [List.foldl_cons]
    exact ih _ (blendStep_length styles acc nw hacc)

/-- C4.  For every blended specification (one containing `'+'`),
`mix_styles` returns, without error, the vector whose coordinate `j` is the
sum over the parsed segments — split on `'+'`, split at the first `'.'`,
weight parsed and scaled by `0.1`, unparsable weights skipped — of the
named style vector's coordinate `j` times the scaled weight, starting from
the zero-initialized 256-coordinate accumulator with no renormalization;
and on the spec's concrete example, `"a.5+b.5"` with unit vectors `a`, `b`
resolves to `[0.5, 0.5, 0, ...]`. -/
theorem mix_styles_blend_characterization :
    (∀ (parse : Text → Option ℚ) (styles : Styles) (spec : Text),
      spec.contains '+' = true →
      mix_styles parse styles spec = .ok [blendFormula parse styles spec]) ∧
    mix_styles parseDigits tblAB "a.5+b.5".data = .ok [vHalf] := by
  constructor
  · intro parse styles spec hplus
    unfold mix_styles
    rw [if_pos hplus]
    have hlen : ((parseSegments parse spec).foldl (blendStep styles) zero256).length = 256 :=
      blend_foldl_length styles (parseSegments parse spec) zero256 (by simp [zero256])
    congr 2
    conv_lhs => rw [← map_getD_range ((parseSegments parse spec).foldl (blendStep styles) zero256)]
    rw [hlen]
    unfold blendFormula
    refine List.map_congr_left ?_
    intro j hj
    have hj' : j < 256 := List.mem_range.mp hj
    rw [blend_foldl_getD styles (parseSegments parse spec) zero256 (by simp [zero256]) j hj',
      zero256_getD]
    ring
  · decide

/-- C4 witness: the general characterization applied at the spec's example
table and specification. -/
theorem mix_styles_blend_characterization_witness :
    mix_styles parseDigits tblAB "a.5+b.5".data =
      .ok [blendFormula parseDigits tblAB "a.5+b.5".data] :=
  mix_styles_blend_characterization.1 parseDigits tblAB "a.5+b.5".data (by decide)

/-- Blending over the empty style table leaves the accumulator untouched:
every lookup fails and contributes nothing. -/
theorem blend_foldl_empty (l : List (Text × ℚ)) :
    ∀ acc : List ℚ, l.foldl (blendStep ([] : Styles)) acc = acc := by
  induction l with
  | nil => intro acc; rfl
  | cons nw rest ih =>
    intro acc
    rw [List.foldl_cons]
    have hstep : blendStep [] acc nw = acc := by unfold blendStep; rfl
    rw [hstep]
    exact ih acc

/-- C6 counterexample: after a failed style-data load the table is empty,
yet a blended resolution does not fail — `mix_styles` on `"a.5+b.5"`
returns `Ok` with the zero vector, contradicting the claim that every
subsequent resolution fails. -/
theorem load_voices_blend_still_resolves :
    load_voices (fun _ : Unit => ([] : Styles)) (Except.error ()) = ([] : Styles) ∧
    mix_styles parseDigits
        (load_voices (fun _ : Unit => ([] : Styles)) (Except.error ()))
        "a.5+b.5".data = .ok [zero256] := by
  constructor
  · rfl
  · decide

/-- C6 amended: when the style data file cannot be loaded, construction
still succeeds with an empty style table, and every subsequent single-name
resolution fails — but blended specifications do not fail: they return the
zero blend vector. -/
theorem load_voices_failure_empty_table {E J : Type} (parseObj : J → Styles)
    (e : E) :
    load_voices parseObj (Except.error e) = [] ∧
    (∀ (parse : Text → Option ℚ) (spec : Text), spec.contains '+' = false →
      mix_styles parse (load_voices parseObj (Except.error e)) spec =
        .error (notFoundMsg ++ spec)) ∧
    (∀ (parse : Text → Option ℚ) (spec : Text), spec.contains '+' = true →
      mix_styles parse (load_voices parseObj (Except.error e)) spec =
        .ok [zero256]) := by
  refine ⟨rfl, ?_, ?_⟩
  · intro parse spec hplus
    have hmem : '+' ∉ spec := by simpa using hplus
    simp [mix_styles, load_voices, hmem]
  · intro parse spec hplus
    unfold load_voices mix_styles
    rw [if_pos hplus, blend_foldl_empty]

/-- C6 witness: at the empty table produced by a failed load, the
single-name resolution `"a"` errors while the blend `"a.5+b.5"` returns
the zero blend. -/
theorem load_voices_failure_empty_table_witness :
    mix_styles parseDigits
        (load_voices (fun _ : Unit => ([] : Styles)) (Except.error ()))
        "a".data = .error (notFoundMsg ++ "a".data) ∧
    mix_styles parseDigits
        (load_voices (fun _ : Unit => ([] : Styles)) (Except.error ()))
        "a.5+b.5".data = .ok [zero256] :=
  ⟨(load_voices_failure_empty_table (fun _ : Unit => ([] : Styles)) ()).2.1
      parseDigits "a".data (by decide),
   (load_voices_failure_empty_table (fun _ : Unit => ([] : Styles)) ()).2.2
      parseDigits "a.5+b.5".data (by decide)⟩

/-- Once the per-chunk loop is in the error state it stays there: the
remaining chunks are not processed. -/
theorem foldl_chunkStep_error {PErr IErr : Type} (vocab : Char → Option ℕ)
    (phon : Text → Text → Except PErr Text) (lan : Text)
    (infer : List (List ℕ) → List (List ℚ) → ℚ → Except IErr (List ℚ))
    (sty : List (List ℚ)) (speed : ℚ) (sil : ℕ) (l : List Text)
    (e : TtsError PErr IErr) :
    l.foldl (chunkStep vocab phon lan infer sty speed sil) (.error e) = .error e := by
  induction l with
  | nil => rfl
  | cons c rest ih => simpa [chunkStep, Except.bind] using ih

/-- A prefix of chunks that all phonemize and infer successfully leaves the
loop in a success state. -/
theorem foldl_chunkStep_ok {PErr IErr : Type} (vocab : Char → Option ℕ)
    (phon : Text → Text → Except PErr Text) (lan : Text)
    (infer : List (List ℕ) → List (List ℚ) → ℚ → Except IErr (List ℚ))
    (sty : List (List ℚ)) (speed : ℚ) (sil : ℕ) :
    ∀ (pre : List Text) (acc : List ℚ),
      (∀ c2 ∈ pre, ∃ ph a, phon c2 lan = .ok ph ∧
        infer [List.replicate sil 30 ++ tokenize vocab ph] sty speed = .ok a) →
      ∃ A : List ℚ,
        pre.foldl (chunkStep vocab phon lan infer sty speed sil) (.ok acc) = .ok A := by
  intro pre
  induction pre with
  | nil => exact fun acc _ => ⟨acc, rfl⟩
  | cons c2 rest ih =>
    intro acc h
    obtain ⟨ph, a, hph, ha⟩ := h c2 (List.mem_cons_self c2 rest)
    rw [List.foldl_cons]
    have hstep : chunkStep vocab phon lan infer sty speed sil (.ok acc) c2 =
        .ok (acc ++ a) := by
      simp [chunkStep, Except.bind, hph, ha]
    rw [hstep]
    exact ih (acc ++ a) (fun x hx => h x (List.mem_cons_of_mem c2 hx))

/-- The per-chunk fold of `tts_raw_audio` is the recursion `runChunks`
applied to the phonemizer already fixed at the request's language. -/
theorem foldl_chunkStep_runChunks {PErr IErr : Type} (vocab : Char → Option ℕ)
    (phon : Text → Text → Except PErr Text) (lan : Text)
    (infer : List (List ℕ) → List (List ℚ) → ℚ → Except IErr (List ℚ))
    (sty : List (List ℚ)) (speed : ℚ) (sil : ℕ) :
    ∀ (chunks : List Text) (acc : List ℚ),
      chunks.foldl (chunkStep vocab phon lan infer sty speed sil) (.ok acc) =
        runChunks vocab (fun c => phon c lan) infer sty speed sil chunks acc := by
  intro chunks
  induction chunks with
  | nil => intro acc; rfl
  | cons c rest ih =>
    intro acc
    rw [List.foldl_cons]
    cases hph : phon c lan with
    | error e =>
      have hstep : chunkStep vocab phon lan infer sty speed sil (.ok acc) c =
          .error (.phonemizeFailed e) := by simp [chunkStep, Except.bind, hph]
      rw [hstep, foldl_chunkStep_error]
      simp [runChunks, hph]
    | ok ph =>
      cases hi : infer [List.replicate sil 30 ++ tokenize vocab ph] sty speed with
      | error e =>
        have hstep : chunkStep vocab phon lan infer sty speed sil (.ok acc) c =
            .error (.chunkFailed e) := by simp [chunkStep, Except.bind, hph, hi]
        rw [hstep, foldl_chunkStep_error]
        simp [runChunks, hph, hi]
      | ok a =>
        have hstep : chunkStep vocab phon lan infer sty speed sil (.ok acc) c =
            .ok (acc ++ a) := by simp [chunkStep, Except.bind, hph, hi]
        rw [hstep, ih (acc ++ a)]
        simp [runChunks, hph, hi]

/-- C7 counterexample: two requests whose offending chunks differ
(`"ab."` vs `"cd."`) but whose inference failures have the same cause
produce identical errors, so the returned error does not carry the
offending chunk's text (the code only prints it to stderr; the error value
is built from the cause alone). -/
theorem tts_raw_audio_error_drops_chunk_text :
    tts_raw_audio vocab0 phonId parseDigits inferFail tblA "ab".data enLang
        ['a'] 1 none =
      tts_raw_audio vocab0 phonId parseDigits inferFail tblA "cd".data enLang
        ['a'] 1 none ∧
    tts_raw_audio vocab0 phonId parseDigits inferFail tblA "ab".data enLang
        ['a'] 1 none = .error (.chunkFailed ()) ∧
    ttsChunks vocab0 phonId "ab".data ≠ ttsChunks vocab0 phonId "cd".data := by
  refine ⟨?_, ?_, ?_⟩
  · decide
  · decide
  · decide

/-- C7 amended: with the style resolved and every chunk before `c`
succeeding, a phonemization failure at `c` makes `tts_raw_audio` return
the phonemizer's error and an inference failure at `c` makes it return the
chunk-processing error built from the cause (in both cases the audio of
the earlier chunks is discarded — the result carries no samples); `tts`
propagates that error and produces file content only on success. -/
theorem tts_atomic_failure {PErr IErr : Type} (vocab : Char → Option ℕ)
    (phon : Text → Text → Except PErr Text) (parse : Text → Option ℚ)
    (infer : List (List ℕ) → List (List ℚ) → ℚ → Except IErr (List ℚ))
    (styles : Styles) (txt lan style_name : Text) (speed : ℚ)
    (sil : Option ℕ) (sty : List (List ℚ)) (pre post : List Text) (c : Text)
    (hmix : mix_styles parse styles style_name = .ok sty)
    (hchunks : ttsChunks vocab phon txt = pre ++ c :: post)
    (hpre : ∀ c2 ∈ pre, ∃ ph a, phon c2 lan = .ok ph ∧
      infer [List.replicate (sil.getD 0) 30 ++ tokenize vocab ph] sty speed = .ok a) :
    (∀ e : PErr, phon c lan = .error e →
      tts_raw_audio vocab phon parse infer styles txt lan style_name speed sil =
        .error (.phonemizeFailed e) ∧
      ∀ (mono : Bool) (k : ℚ),
        tts vocab phon parse infer styles txt lan style_name speed mono k sil =
          .error (.phonemizeFailed e)) ∧
    (∀ (ph : Text) (e : IErr), phon c lan = .ok ph →
      infer [List.replicate (sil.getD 0) 30 ++ tokenize vocab ph] sty speed =
        .error e →
      tts_raw_audio vocab phon parse infer styles txt lan style_name speed sil =
        .error (.chunkFailed e) ∧
      ∀ (mono : Bool) (k : ℚ),
        tts vocab phon parse infer styles txt lan style_name speed mono k sil =
          .error (.chunkFailed e)) := by
  obtain ⟨A, hA⟩ := foldl_chunkStep_ok vocab phon lan infer sty speed (sil.getD 0)
    pre [] hpre
  constructor
  · intro e he
    have hraw : tts_raw_audio vocab phon parse infer styles txt lan style_name speed sil =
        .error (.phonemizeFailed e) := by
      unfold tts_raw_audio
      rw [hmix, hchunks]
      simp only [List.foldl_append, hA, List.foldl_cons]
      have hstep : chunkStep vocab phon lan infer sty speed (sil.getD 0) (.ok A) c =
          .error (.phonemizeFailed e) := by simp [chunkStep, Except.bind, he]
      rw [hstep, foldl_chunkStep_error]
    exact ⟨hraw, fun mono k => by unfold tts; rw [hraw]; rfl⟩
  · intro ph e hph hinf
    have hraw : tts_raw_audio vocab phon parse infer styles txt lan style_name speed sil =
        .error (.chunkFailed e) := by
      unfold tts_raw_audio
      rw [hmix, hchunks]
      simp only [List.foldl_append, hA, List.foldl_cons]
      have hstep : chunkStep vocab phon lan infer sty speed (sil.getD 0) (.ok A) c =
          .error (.chunkFailed e) := by simp [chunkStep, Except.bind, hph, hinf]
      rw [hstep, foldl_chunkStep_error]
    exact ⟨hraw, fun mono k => by unfold tts; rw [hraw]; rfl⟩

/-- C7 witness: with the phonemizer failing for the request language `"x"`
on the single chunk `"ab."`, `tts_raw_audio` and `tts` both return the
phonemizer's error and no samples or file content are produced. -/
theorem tts_atomic_failure_witness :
    tts_raw_audio vocab0 phonX parseDigits inferFail tblA "ab".data ['x']
        ['a'] 1 none = .error (.phonemizeFailed ()) ∧
    tts vocab0 phonX parseDigits inferFail tblA "ab".data ['x'] ['a'] 1 false 0
        none = .error (.phonemizeFailed ()) := by
  have h := (tts_atomic_failure vocab0 phonX parseDigits inferFail tblA
    "ab".data ['x'] ['a'] 1 none [zero256] [] [] "ab.".data
    (by decide) (by decide) (by simp)).1 () (by decide)
  exact ⟨h.1, h.2 false 0⟩

/-- C9.  Instance construction by `main` (main.rs lines 306-316 and
370-376): in the CLI modes (`text`, `file`, `stream`) exactly one
inference instance is constructed (with instance-count argument 1)
regardless of the configured `--instances` value, while in `openai` mode
exactly the configured number of instances is constructed. -/
theorem instance_construction_policy (n : ℕ) :
    constructedInstanceCounts RunMode.text n = [1] ∧
    constructedInstanceCounts RunMode.file n = [1] ∧
    constructedInstanceCounts RunMode.stream n = [1] ∧
    (constructedInstanceCounts RunMode.text n).length = 1 ∧
    (constructedInstanceCounts RunMode.file n).length = 1 ∧
    (constructedInstanceCounts RunMode.stream n).length = 1 ∧
    (constructedInstanceCounts RunMode.openai n).length = n := by
  refine ⟨rfl, rfl, rfl, rfl, rfl, rfl, ?_⟩
  simp [constructedInstanceCounts]

/-- C10.  The chunk decomposition used by `tts_raw_audio` is independent
of the request's language code: the pipeline factors through the
language-free planner output `ttsChunks vocab phon txt` (token counts
during planning are always measured by phonemizing with `"en"` — see
`planCost` — and only the per-chunk processing stage `runChunks` receives
the caller's language `lan`); moreover a measurement phonemization failure
counts as zero tokens during planning. -/
theorem chunk_planning_language_independent {PErr IErr : Type}
    (vocab : Char → Option ℕ) (phon : Text → Text → Except PErr Text)
    (parse : Text → Option ℚ)
    (infer : List (List ℕ) → List (List ℚ) → ℚ → Except IErr (List ℚ))
    (styles : Styles) :
    (∀ (txt lan style_name : Text) (speed : ℚ) (sil : Option ℕ),
      tts_raw_audio vocab phon parse infer styles txt lan style_name speed sil =
        match mix_styles parse styles style_name with
        | .error m => .error (.styleLookup m)
        | .ok sty =>
          runChunks vocab (fun c => phon c lan) infer sty speed (sil.getD 0)
            (ttsChunks vocab phon txt) []) ∧
    (∀ (s : Text) (e : PErr), phon s enLang = .error e →
      planCost vocab phon s = 0) := by
  constructor
  · intro txt lan style_name speed sil
    unfold tts_raw_audio
    cases mix_styles parse styles style_name with
    | error m => rfl
    | ok sty =>
      exact foldl_chunkStep_runChunks vocab phon lan infer sty speed (sil.getD 0)
        (ttsChunks vocab phon txt) []
  · intro s e h
    unfold planCost
    rw [h]
    rfl

/-- C10 witness: the factorization applied at a concrete request, and the
zero-token measurement at a phonemizer that always fails. -/
theorem chunk_planning_language_independent_witness :
    tts_raw_audio vocab0 phonId parseDigits inferFail tblA "ab".data enLang
        ['a'] 1 none =
      (match mix_styles parseDigits tblA ['a'] with
       | .error m => .error (.styleLookup m)
       | .ok sty =>
         runChunks vocab0 (fun c => phonId c enLang) inferFail sty 1 0
           (ttsChunks vocab0 phonId "ab".data) []) ∧
    planCost vocab0 phonFail ['a'] = 0 :=
  ⟨(chunk_planning_language_independent vocab0 phonId parseDigits inferFail
      tblA).1 "ab".data enLang ['a'] 1 none,
   (chunk_planning_language_independent vocab0 phonFail parseDigits inferFail
      ([] : Styles)).2 ['a'] () rfl⟩
